import Mathlib

/-!
Verification development for the release-notes extraction and upload pipeline
(source: Orbweaver-uploader.py).  The Python program is shallowly embedded:
strings are Lean `String`s (lists of characters), the parsed HTML document is a
structure holding the title text, the country-name blocks and the
description-list blocks, the CSV reference table is a list of rows (the value
`none` standing for an absent or unreadable file, which the source catches and
turns into a per-call `None`), and the observable behaviour of `main` is a list
of events (prints, upserts, unmatched reports, record displays).
-/

/-- Characters removed by the first regex of sanitize_text (newline and tab). -/
def isNlTab (c : Char) : Bool := c == '\n' || c == '\t'

/-- The whitespace characters stripped by the Python str.strip call
(space, tab, newline, carriage return, vertical tab, form feed). -/
def isPySpace (c : Char) : Bool :=
  c == ' ' || c == '\t' || c == '\n' || c == '\r' ||
  c == Char.ofNat 11 || c == Char.ofNat 12

/-- Collapse every run of spaces to a single space,
embedding the second regex substitution of sanitize_text. -/
def collapseSpaces : List Char → List Char
  | [] => []
  | [c] => [c]
  | a :: b :: rest =>
    if a == ' ' && b == ' ' then collapseSpaces (b :: rest)
    else a :: collapseSpaces (b :: rest)

/-- Python str.strip with no argument: drop whitespace from both ends. -/
def pyStrip (s : List Char) : List Char :=
  ((s.dropWhile isPySpace).reverse.dropWhile isPySpace).reverse

/-- sanitize_text from the source: delete newline and tab characters,
collapse runs of spaces, then strip leading and trailing whitespace. -/
def sanitize_text (text : String) : String :=
  String.mk (pyStrip (collapseSpaces (text.data.filter (fun c => !isNlTab c))))

/-- Lowercasing of a string, embedding the Python str.lower calls. -/
def lowerStr (s : String) : String := String.mk (s.data.map Char.toLower)

/-- Python str.strip on a String. -/
def stripStr (s : String) : String := String.mk (pyStrip s.data)

/-- Does the pattern match case-insensitively at the head of the text? -/
def ciMatchHead (pat s : List Char) : Bool :=
  (s.take pat.length).map Char.toLower == pat.map Char.toLower

/-- Does the pattern occur case-insensitively anywhere in the text?
Embeds re.search with an escaped (literal) pattern and re.IGNORECASE. -/
def ciContains (pat : List Char) : List Char → Bool
  | [] => ciMatchHead pat []
  | c :: rest => ciMatchHead pat (c :: rest) || ciContains pat rest

/-- re.sub with an empty literal pattern: the replacement is inserted at
every position of the text (Python semantics of matching the empty string). -/
def emptyPatSub (repl : List Char) : List Char → List Char
  | [] => repl
  | c :: rest => repl ++ c :: emptyPatSub repl rest

/-- One left-to-right pass replacing each non-overlapping case-insensitive
occurrence of the (non-empty) pattern; fuel bounds the recursion and is
always supplied as the length of the text, which suffices because every
step consumes at least one character. -/
def substCIFuel (pat repl : List Char) : Nat → List Char → List Char
  | _, [] => []
  | 0, s => s
  | Nat.succ fuel, c :: rest =>
    if ciMatchHead pat (c :: rest) then
      repl ++ substCIFuel pat repl fuel (List.drop (pat.length - 1) rest)
    else
      c :: substCIFuel pat repl fuel rest

/-- re.sub(re.escape(pat), repl, s, flags=re.IGNORECASE) on character lists. -/
def replaceCIList (pat repl s : List Char) : List Char :=
  if pat.isEmpty then emptyPatSub repl s else substCIFuel pat repl s.length s

/-- re.sub(re.escape(pat), repl, s, flags=re.IGNORECASE) on Strings. -/
def replaceCIStr (pat repl s : String) : String :=
  String.mk (replaceCIList pat.data repl.data s.data)

/-- Python s.split(","): split at every comma, keeping empty pieces;
the empty string yields a single empty piece. -/
def commaSplitAux : List Char → List Char → List (List Char)
  | [], cur => [cur.reverse]
  | c :: rest, cur =>
    if c == ',' then cur.reverse :: commaSplitAux rest []
    else commaSplitAux rest (c :: cur)

/-- Python s.split(",") on Strings. -/
def splitComma (s : String) : List String := (commaSplitAux s.data []).map String.mk

/-- Python s.split() with no argument: split on whitespace runs,
discarding empty pieces. -/
def wsSplitAux : List Char → List Char → List (List Char)
  | [], cur => if cur.isEmpty then [] else [cur.reverse]
  | c :: rest, cur =>
    if isPySpace c then
      if cur.isEmpty then wsSplitAux rest []
      else cur.reverse :: wsSplitAux rest []
    else wsSplitAux rest (c :: cur)

/-- Python s.split() on Strings. -/
def wsSplit (s : String) : List String := (wsSplitAux s.data []).map String.mk

/-- "\n".join(parts), as used when building a record description. -/
def joinNl : List String → String
  | [] => ""
  | [s] => s
  | s :: rest => s ++ "\n" ++ joinNl rest

/-- The CountryInfo class of the source: one record per extracted country. -/
structure CountryInfo where
  name : String
  version : String
  iso_code : Option String
  description : String
deriving DecidableEq

/-- Scan of the CSV rows inside get_iso_code: the two fields of each row
are stripped; an exact case-insensitive comparison is tried first, then a
case-insensitive substring search of the canonical name inside the raw
name; the ISO code of the first matching row is returned. -/
def lookupIso (raw : String) : List (String × String) → Option String
  | [] => none
  | (c0, c1) :: rest =>
    let iso := stripStr c0
    let nm := stripStr c1
    if lowerStr nm == lowerStr raw then some iso
    else if ciContains nm.data raw.data then some iso
    else lookupIso raw rest

/-- get_iso_code from the source.  The CSV file is modelled as
`Option (List (String × String))`: `none` stands for an absent or
unreadable file, which the source catches (printing a diagnostic) and
turns into a `None` return value for that call. -/
def get_iso_code (raw : String) (csv : Option (List (String × String))) : Option String :=
  match csv with
  | none => none
  | some rows => lookupIso raw rows

/-- The parsed HTML document, as seen through BeautifulSoup: the title text
(if a title tag exists), the texts of the h2 CountryName tags in document
order, and for each ul CountryRemark tag the texts of its li items. -/
structure HtmlDoc where
  title : Option String
  countryBlocks : List String
  descriptionBlocks : List (List String)
deriving DecidableEq

/-- Version extraction from the title: the third whitespace-separated word
when the title exists and has at least three words, otherwise "Unknown". -/
def extractVersion (title : Option String) : String :=
  match title with
  | none => "Unknown"
  | some t =>
    match wsSplit t with
    | _ :: _ :: v :: _ => v
    | _ => "Unknown"

/-- Per-list-item processing of extract_descriptions: sanitize, then (when
the REMOVE_WORD environment string is non-empty) remove every keyword of
its comma-split, then (when both CHANGE_PARAMETER strings are non-empty)
apply the zipped substitution pairs of their comma-splits. -/
def processLi (rm cf ct : String) (li : String) : String :=
  let d := sanitize_text li
  let d := if rm ≠ "" then (splitComma rm).foldl (fun a kw => replaceCIStr kw "" a) d else d
  if cf ≠ "" ∧ ct ≠ "" then
    ((splitComma cf).zip (splitComma ct)).foldl (fun a p => replaceCIStr p.1 p.2 a) d
  else d

/-- extract_descriptions from the source, applied to the li texts of one
ul CountryRemark block. -/
def extract_descriptions (rm cf ct : String) (ul : List String) : List String :=
  ul.map (processLi rm cf ct)

/-- The keyword-removal loop of extract_descriptions, over an explicit
keyword list. -/
def applyRemovals (kws : List String) (t : String) : String :=
  kws.foldl (fun a kw => replaceCIStr kw "" a) t

/-- The substitution loop of extract_descriptions, over an explicit list
of (from, to) pairs. -/
def applySubstitutions (subs : List (String × String)) (t : String) : String :=
  subs.foldl (fun a p => replaceCIStr p.1 p.2 a) t

/-- The rewrite engine of the spec, read off the source loops: keyword
removals first (in list order), then substitutions (in list order). -/
def rewrite (t : String) (kws : List String) (subs : List (String × String)) : String :=
  applySubstitutions subs (applyRemovals kws t)

/-- Step 4 of extraction: when the first country name lowercases to
"general", drop it together with the first description block.  Returns
`none` when descriptions.pop(0) would raise (general first name but no
description block), which the source catches as a generic parse error. -/
def dropGeneral : List String → List (List String) →
    Option (List String × List (List String))
  | [], descs => some ([], descs)
  | n :: ns, descs =>
    if lowerStr n == "general" then
      match descs with
      | [] => none
      | _ :: ds => some (ns, ds)
    else some (n :: ns, descs)

/-- Fatal conditions of parse_html_file: the caught IndexError from popping
an empty description list, and the printed count-mismatch error. -/
inductive PError where
  | popError : PError
  | mismatchError : PError
deriving DecidableEq

/-- Outcome of parse_html_file: the extracted version string, the global
country_data_list, the global unmatched_countries list, and the fatal
condition (if any) that prevented record construction. -/
structure ParseResult where
  version : String
  records : List CountryInfo
  unmatched : List String
  fatal : Option PError
deriving DecidableEq

/-- Record construction of the zip loop: one CountryInfo per positional
triple, with the description lines joined by newlines. -/
def mkRecords (version : String) :
    List String → List (Option String) → List (List String) → List CountryInfo
  | n :: ns, i :: is, d :: ds =>
    ⟨n, version, i, joinNl d⟩ :: mkRecords version ns is ds
  | _, _, _ => []

/-- The tail of parse_html_file after the General drop: compute the ISO
codes and the unmatched names, then build records only when the three
list lengths agree, otherwise report the mismatch and build nothing. -/
def parseCore (csv : Option (List (String × String))) (version : String)
    (names : List String) (descs : List (List String)) : ParseResult :=
  if names.length = (names.map (fun n => get_iso_code n csv)).length ∧
      (names.map (fun n => get_iso_code n csv)).length = descs.length then
    ⟨version, mkRecords version names (names.map (fun n => get_iso_code n csv)) descs,
      names.filter (fun n => (get_iso_code n csv).isNone), none⟩
  else
    ⟨version, [], names.filter (fun n => (get_iso_code n csv).isNone),
      some PError.mismatchError⟩

/-- parse_html_file from the source, over the embedded document. -/
def parse (csv : Option (List (String × String))) (doc : HtmlDoc)
    (rm cf ct : String) : ParseResult :=
  match dropGeneral (doc.countryBlocks.map sanitize_text)
      (doc.descriptionBlocks.map (extract_descriptions rm cf ct)) with
  | none => ⟨extractVersion doc.title, [], [], some PError.popError⟩
  | some (names, descs) => parseCore csv (extractVersion doc.title) names descs

/-- Observable actions of main: the count print, the upload banner, one
upsert per persisted record (insert_into_database call), the unmatched
banner, one report line per unmatched name, and one display line per
extracted record. -/
inductive Event where
  | printCount : Nat → Event
  | uploadBanner : Event
  | upsert : String → Option String → String → Event
  | unmatchedBanner : Event
  | reportUnmatched : String → Event
  | displayRecord : CountryInfo → Event
deriving DecidableEq

/-- Is the event a persistence (upsert) call? -/
def isUpsert : Event → Bool
  | Event.upsert _ _ _ => true
  | _ => false

/-- main from the source, as a function of the two global lists filled by
parse_html_file: print the count; if no name is unmatched, upload every
record in order, otherwise report every unmatched name; finally display
every extracted record. -/
def main_events (records : List CountryInfo) (unmatched : List String) : List Event :=
  Event.printCount records.length ::
    (if unmatched.isEmpty then
      Event.uploadBanner ::
        records.map (fun c => Event.upsert c.version c.iso_code c.description)
    else
      Event.unmatchedBanner :: unmatched.map Event.reportUnmatched)
    ++ records.map Event.displayRecord

/-- The whole run: parse, then main over the resulting global lists. -/
def runPipeline (csv : Option (List (String × String))) (doc : HtmlDoc)
    (rm cf ct : String) : List Event :=
  main_events (parse csv doc rm cf ct).records (parse csv doc rm cf ct).unmatched

/-- The no-two-consecutive-spaces relation between adjacent characters. -/
def Rsp : Char → Char → Prop := fun a b => ¬(a = ' ' ∧ b = ' ')

theorem mem_collapseSpaces {c : Char} : ∀ l, c ∈ collapseSpaces l → c ∈ l := by
  intro l
  induction l with
  | nil => simp [collapseSpaces]
  | cons a tl ih =>
    cases tl with
    | nil => simp [collapseSpaces]
    | cons b rest =>
      simp only [collapseSpaces]
      split
      · intro h
        exact List.mem_cons_of_mem a (ih h)
      · intro h
        rcases List.mem_cons.mp h with h | h
        · exact h ▸ List.mem_cons_self a _
        · exact List.mem_cons_of_mem a (ih h)

theorem head?_collapseSpaces : ∀ l : List Char, (collapseSpaces l).head? = l.head? := by
  intro l
  induction l with
  | nil => rfl
  | cons a tl ih =>
    cases tl with
    | nil => rfl
    | cons b rest =>
      simp only [collapseSpaces]
      split
      · rename_i h
        rw [ih]
        simp only [List.head?]
        have : a = ' ' ∧ b = ' ' := by
          constructor <;> [skip; skip] <;>
            simp_all [Bool.and_eq_true, beq_iff_eq]
        rw [this.1, this.2]
      · rfl

theorem chain'_collapseSpaces : ∀ l : List Char, List.Chain' Rsp (collapseSpaces l) := by
  intro l
  induction l with
  | nil => simp [collapseSpaces]
  | cons a tl ih =>
    cases tl with
    | nil => simp [collapseSpaces]
    | cons b rest =>
      simp only [collapseSpaces]
      split
      · exact ih
      · rename_i h
        rw [List.chain'_cons']
        refine ⟨?_, ih⟩
        intro y hy
        rw [head?_collapseSpaces] at hy
        simp only [List.head?, Option.mem_def, Option.some.injEq] at hy
        subst hy
        intro ⟨ha, hb⟩
        subst ha; subst hb
        simp at h

theorem collapseSpaces_eq_self : ∀ l : List Char, List.Chain' Rsp l → collapseSpaces l = l := by
  intro l
  induction l with
  | nil => intro; rfl
  | cons a tl ih =>
    cases tl with
    | nil => intro; rfl
    | cons b rest =>
      intro h
      rw [List.chain'_cons'] at h
      simp only [collapseSpaces]
      have hab : ¬(a = ' ' ∧ b = ' ') := by
        have := h.1 b (by simp [List.head?])
        exact this
      have : (a == ' ' && b == ' ') = false := by
        by_contra hc
        simp only [Bool.not_eq_false, Bool.and_eq_true, beq_iff_eq] at hc
        exact hab hc
      rw [this]
      simp [ih h.2]

theorem head?_dropWhile_not (p : Char → Bool) :
    ∀ l : List Char, ∀ c, (l.dropWhile p).head? = some c → p c = false := by
  intro l
  induction l with
  | nil => intro c h; simp [List.dropWhile] at h
  | cons a tl ih =>
    intro c h
    by_cases hp : p a
    · rw [List.dropWhile_cons_of_pos hp] at h
      exact ih c h
    · rw [List.dropWhile_cons_of_neg hp] at h
      simp only [List.head?, Option.some.injEq] at h
      subst h
      exact eq_false_of_ne_true hp

theorem dropWhile_eq_self_of_head (p : Char → Bool) (l : List Char)
    (h : ∀ c, l.head? = some c → p c = false) : l.dropWhile p = l := by
  cases l with
  | nil => rfl
  | cons a tl =>
    have := h a rfl
    rw [List.dropWhile_cons_of_neg (by simp [this])]

theorem dropWhile_idem (p : Char → Bool) (l : List Char) :
    (l.dropWhile p).dropWhile p = l.dropWhile p :=
  dropWhile_eq_self_of_head p _ (head?_dropWhile_not p l)

theorem head?_of_pref {α : Type} (r v : List α) (h : r <+: v) (c : α)
    (hc : r.head? = some c) : v.head? = some c := by
  rcases h with ⟨t, rfl⟩
  cases r with
  | nil => simp [List.head?] at hc
  | cons a tl => simp_all [List.head?]

theorem pyStrip_nolead (s : List Char) :
    (pyStrip s).dropWhile isPySpace = pyStrip s := by
  apply dropWhile_eq_self_of_head
  intro c hc
  have hpref : pyStrip s <+: s.dropWhile isPySpace := by
    rw [← List.reverse_suffix]
    unfold pyStrip
    rw [List.reverse_reverse]
    exact List.dropWhile_suffix isPySpace
  have : (s.dropWhile isPySpace).head? = some c := head?_of_pref _ _ hpref c hc
  exact head?_dropWhile_not isPySpace s c this

theorem pyStrip_notrail (s : List Char) :
    (pyStrip s).reverse.dropWhile isPySpace = (pyStrip s).reverse := by
  unfold pyStrip
  rw [List.reverse_reverse]
  exact dropWhile_idem isPySpace _

theorem mem_pyStrip {c : Char} (s : List Char) (h : c ∈ pyStrip s) : c ∈ s := by
  unfold pyStrip at h
  rw [List.mem_reverse] at h
  have h1 := (List.dropWhile_suffix isPySpace).subset h
  rw [List.mem_reverse] at h1
  exact (List.dropWhile_suffix isPySpace).subset h1

theorem chain'_rev_of (R : Char → Char → Prop) (hsym : ∀ a b, R a b → R b a)
    (l : List Char) (h : List.Chain' R l) : List.Chain' R l.reverse := by
  rw [List.chain'_reverse]
  exact h.imp (fun a b hab => hsym a b hab)

theorem chain'_pyStrip (R : Char → Char → Prop) (hsym : ∀ a b, R a b → R b a)
    (s : List Char) (h : List.Chain' R s) : List.Chain' R (pyStrip s) := by
  unfold pyStrip
  have h1 : List.Chain' R (s.dropWhile isPySpace) := h.suffix (List.dropWhile_suffix _)
  have h2 : List.Chain' R (s.dropWhile isPySpace).reverse := chain'_rev_of R hsym _ h1
  have h3 : List.Chain' R ((s.dropWhile isPySpace).reverse.dropWhile isPySpace) :=
    h2.suffix (List.dropWhile_suffix _)
  exact chain'_rev_of R hsym _ h3

theorem Rsp_symm : ∀ a b, Rsp a b → Rsp b a := by
  intro a b h hc
  exact h ⟨hc.2, hc.1⟩

theorem sanitize_mem (s : String) :
    ∀ c ∈ (sanitize_text s).data, isNlTab c = false := by
  intro c hc
  have h1 : c ∈ collapseSpaces ((s.data.filter (fun c => !isNlTab c))) :=
    mem_pyStrip _ hc
  have h2 : c ∈ s.data.filter (fun c => !isNlTab c) := mem_collapseSpaces _ h1
  have := List.of_mem_filter h2
  simpa using this

theorem sanitize_chain' (s : String) : List.Chain' Rsp (sanitize_text s).data :=
  chain'_pyStrip Rsp Rsp_symm _ (chain'_collapseSpaces _)

theorem sanitize_nolead (s : String) :
    (sanitize_text s).data.dropWhile isPySpace = (sanitize_text s).data :=
  pyStrip_nolead _

theorem sanitize_notrail (s : String) :
    (sanitize_text s).data.reverse.dropWhile isPySpace = (sanitize_text s).data.reverse :=
  pyStrip_notrail _

theorem pyStrip_eq_self (l : List Char) (h1 : l.dropWhile isPySpace = l)
    (h2 : l.reverse.dropWhile isPySpace = l.reverse) : pyStrip l = l := by
  unfold pyStrip
  rw [h1, h2, List.reverse_reverse]

theorem mk_data_eq (t : String) : String.mk t.data = t := rfl

/-- C7: sanitize_text is total (it is a plain Lean function) and, for
every input string, its output contains no newline or tab character, no
two consecutive spaces, and no leading or trailing whitespace (the last
two facts stated as: dropping leading whitespace from the output, or from
its reversal, changes nothing). -/
theorem C7_sanitizer_output_clean (s : String) :
    ('\n' ∉ (sanitize_text s).data) ∧ ('\t' ∉ (sanitize_text s).data) ∧
    List.Chain' Rsp (sanitize_text s).data ∧
    (sanitize_text s).data.dropWhile isPySpace = (sanitize_text s).data ∧
    (sanitize_text s).data.reverse.dropWhile isPySpace = (sanitize_text s).data.reverse := by
  refine ⟨?_, ?_, sanitize_chain' s, sanitize_nolead s, sanitize_notrail s⟩
  · intro h
    have := sanitize_mem s _ h
    simp [isNlTab] at this
  · intro h
    have := sanitize_mem s _ h
    simp [isNlTab] at this

/-- C8: sanitize_text is idempotent: sanitizing an already sanitized
string returns it unchanged. -/
theorem C8_sanitize_idempotent (s : String) :
    sanitize_text (sanitize_text s) = sanitize_text s := by
  conv_lhs => rw [sanitize_text]
  have hf : (sanitize_text s).data.filter (fun c => !isNlTab c) = (sanitize_text s).data := by
    apply List.filter_eq_self.mpr
    intro a ha
    simp [sanitize_mem s a ha]
  rw [hf, collapseSpaces_eq_self _ (sanitize_chain' s),
    pyStrip_eq_self _ (sanitize_nolead s) (sanitize_notrail s), mk_data_eq]

/-- An entry of the reference table satisfies the resolver tests: its
stripped canonical name equals the raw name case-insensitively, or occurs
case-insensitively as a substring of the raw name. -/
def entryMatches (raw : String) (e : String × String) : Bool :=
  lowerStr (stripStr e.2) == lowerStr raw || ciContains (stripStr e.2).data raw.data

theorem lookupIso_eq_find (raw : String) :
    ∀ rows : List (String × String),
      lookupIso raw rows = (rows.find? (entryMatches raw)).map (fun e => stripStr e.1) := by
  intro rows
  induction rows with
  | nil => rfl
  | cons e rest ih =>
    obtain ⟨c0, c1⟩ := e
    by_cases h1 : (lowerStr (stripStr c1) == lowerStr raw) = true
    · simp [lookupIso, entryMatches, List.find?_cons, h1]
    · by_cases h2 : ciContains (stripStr c1).data raw.data = true
      · simp [lookupIso, entryMatches, List.find?_cons, h1, h2]
      · simp [lookupIso, entryMatches, List.find?_cons, h1, h2, ih]

theorem ciContains_nil : ∀ l : List Char, ciContains [] l = true := by
  intro l
  cases l <;> simp [ciContains, ciMatchHead]

/-- C2: the resolver scans the reference table in stored order and returns
the ISO code of the first entry whose canonical name equals the raw name
case-insensitively or occurs case-insensitively as a substring of the raw
name (the exact test is checked first at each entry; since equality also
passes the substring test, the first matching entry determines the result
either way), and returns absent when no entry matches.  Concrete checks:
an unknown name resolves to absent, a qualified raw name resolves by the
substring test, and the first of two matching entries wins. -/
theorem C2_resolver_first_match :
    (∀ (raw : String) (rows : List (String × String)),
      get_iso_code raw (some rows) =
        (rows.find? (entryMatches raw)).map (fun e => stripStr e.1))
    ∧ get_iso_code "Atlantis" (some [("AR", "Argentina"), ("BR", "Brazil")]) = none
    ∧ get_iso_code "France (Metropolitan)" (some [("FR", "France")]) = some "FR"
    ∧ get_iso_code "Land" (some [("A", "Land"), ("B", "Land")]) = some "A" := by
  refine ⟨?_, by decide, by decide, by decide⟩
  intro raw rows
  exact lookupIso_eq_find raw rows

/-- C9: an entry whose canonical name is the empty string matches every
raw name through the substring test (the empty pattern occurs in every
string), so once the scan reaches it the resolver returns its ISO code,
shadowing all later entries; the unknown-name-resolves-to-absent
guarantee therefore needs every canonical name to be non-empty. -/
theorem C9_empty_canonical_shadows (raw iso : String)
    (pre post : List (String × String))
    (h : ∀ e ∈ pre, entryMatches raw e = false) :
    get_iso_code raw (some (pre ++ (iso, "") :: post)) = some (stripStr iso) := by
  show lookupIso raw (pre ++ (iso, "") :: post) = some (stripStr iso)
  rw [lookupIso_eq_find, List.find?_append]
  have hpre : pre.find? (entryMatches raw) = none :=
    List.find?_eq_none.mpr (fun x hx => by simp [h x hx])
  have hm : entryMatches raw (iso, "") = true := by
    have hd : (stripStr "").data = [] := rfl
    simp [entryMatches, hd, ciContains_nil]
  rw [hpre]
  simp [List.find?_cons, hm]

/-- Witness for C9 at a concrete table: the empty canonical name of the
middle entry captures the otherwise-unmatched name Atlantis. -/
theorem C9_witness :
    get_iso_code "Atlantis"
        (some ([("AR", "Argentina")] ++ ("XX", "") :: [("BR", "Brazil")])) =
      some (stripStr "XX") :=
  C9_empty_canonical_shadows "Atlantis" "XX" [("AR", "Argentina")] [("BR", "Brazil")]
    (by decide)

theorem filter_upsert_display (rs : List CountryInfo) :
    (rs.map Event.displayRecord).filter isUpsert = [] := by
  induction rs with
  | nil => rfl
  | cons r rest ih => simp [List.filter_cons, isUpsert, ih]

theorem filter_upsert_reports (ns : List String) :
    (ns.map Event.reportUnmatched).filter isUpsert = [] := by
  induction ns with
  | nil => rfl
  | cons n rest ih => simp [List.filter_cons, isUpsert, ih]

theorem filter_upsert_upserts (rs : List CountryInfo) :
    (rs.map (fun c => Event.upsert c.version c.iso_code c.description)).filter isUpsert =
      rs.map (fun c => Event.upsert c.version c.iso_code c.description) := by
  induction rs with
  | nil => rfl
  | cons r rest ih => simp [List.filter_cons, isUpsert, ih]

theorem main_events_no_upsert (records : List CountryInfo) (unmatched : List String)
    (hne : unmatched ≠ []) : (main_events records unmatched).filter isUpsert = [] := by
  have hne' : unmatched.isEmpty = false := by
    cases unmatched with
    | nil => exact absurd rfl hne
    | cons a l => rfl
  simp [main_events, hne', List.filter_append, List.filter_cons, isUpsert,
    filter_upsert_reports, filter_upsert_display]

/-- C1: for every extraction outcome, when the unmatched list is non-empty
the orchestrator makes zero upsert calls and reports every unmatched name;
when it is empty, the upsert calls are exactly one per extracted record,
in extraction order. -/
theorem C1_orchestrator_gate (records : List CountryInfo) (unmatched : List String) :
    (unmatched ≠ [] →
      (main_events records unmatched).filter isUpsert = [] ∧
      ∀ n ∈ unmatched, Event.reportUnmatched n ∈ main_events records unmatched)
    ∧ (unmatched = [] →
      (main_events records unmatched).filter isUpsert =
        records.map (fun c => Event.upsert c.version c.iso_code c.description)) := by
  constructor
  · intro hne
    have hne' : unmatched.isEmpty = false := by
      cases unmatched with
      | nil => exact absurd rfl hne
      | cons a l => rfl
    refine ⟨main_events_no_upsert records unmatched hne, ?_⟩
    intro n hn
    unfold main_events
    rw [hne']
    exact List.mem_cons.mpr (Or.inr (List.mem_append.mpr (Or.inl
      (List.mem_cons.mpr (Or.inr (List.mem_map.mpr ⟨n, hn, rfl⟩))))))
  · intro he
    subst he
    simp [main_events, List.filter_append, List.filter_cons, isUpsert,
      filter_upsert_upserts, filter_upsert_display]

/-- Witness for C1 at a concrete outcome with one record and one unmatched
name: no upsert call is made and the name is reported. -/
theorem C1_witness :
    (main_events [⟨"France", "1.0", some "FR", "d"⟩] ["Brazil"]).filter isUpsert = [] ∧
    Event.reportUnmatched "Brazil" ∈
      main_events [⟨"France", "1.0", some "FR", "d"⟩] ["Brazil"] := by
  have h := (C1_orchestrator_gate [⟨"France", "1.0", some "FR", "d"⟩] ["Brazil"]).1
    (by decide)
  exact ⟨h.1, h.2 "Brazil" (by decide)⟩

theorem parse_some_eq (csv : Option (List (String × String))) (doc : HtmlDoc)
    (rm cf ct : String) (ns : List String) (ds : List (List String))
    (hdg : dropGeneral (doc.countryBlocks.map sanitize_text)
        (doc.descriptionBlocks.map (extract_descriptions rm cf ct)) = some (ns, ds)) :
    parse csv doc rm cf ct = parseCore csv (extractVersion doc.title) ns ds := by
  unfold parse
  rw [hdg]

theorem parse_none_eq (csv : Option (List (String × String))) (doc : HtmlDoc)
    (rm cf ct : String)
    (hdg : dropGeneral (doc.countryBlocks.map sanitize_text)
        (doc.descriptionBlocks.map (extract_descriptions rm cf ct)) = none) :
    parse csv doc rm cf ct =
      ⟨extractVersion doc.title, [], [], some PError.popError⟩ := by
  unfold parse
  rw [hdg]

theorem mkRecords_iso_none (v : String) :
    ∀ (ns : List String) (is : List (Option String)) (ds : List (List String)),
      (∀ i ∈ is, i = none) → ∀ r ∈ mkRecords v ns is ds, r.iso_code = none := by
  intro ns
  induction ns with
  | nil =>
    intro is ds h r hr
    simp [mkRecords] at hr
  | cons n ns ih =>
    intro is ds h r hr
    cases is with
    | nil => simp [mkRecords] at hr
    | cons i is =>
      cases ds with
      | nil => simp [mkRecords] at hr
      | cons d ds =>
        simp only [mkRecords, List.mem_cons] at hr
        rcases hr with hr | hr
        · subst hr
          exact h i (List.mem_cons_self i is)
        · exact ih is ds (fun j hj => h j (List.mem_cons_of_mem i hj)) r hr

theorem mkRecords_names (v : String) :
    ∀ (ns : List String) (is : List (Option String)) (ds : List (List String)),
      ns.length = is.length → ns.length = ds.length →
      (mkRecords v ns is ds).map CountryInfo.name = ns := by
  intro ns
  induction ns with
  | nil => intro is ds _ _; rfl
  | cons n ns ih =>
    intro is ds h1 h2
    cases is with
    | nil => simp at h1
    | cons i is =>
      cases ds with
      | nil => simp at h2
      | cons d ds =>
        simp only [mkRecords, List.map_cons]
        rw [ih is ds (by simpa using h1) (by simpa using h2)]

/-- C4: when, after the General drop, the number of country names and the
number of description blocks differ, extraction reports the mismatch and
builds no records at all (never a partial record set). -/
theorem C4_mismatch_no_records (csv : Option (List (String × String)))
    (doc : HtmlDoc) (rm cf ct : String) (ns : List String) (ds : List (List String))
    (hdg : dropGeneral (doc.countryBlocks.map sanitize_text)
        (doc.descriptionBlocks.map (extract_descriptions rm cf ct)) = some (ns, ds))
    (hne : ns.length ≠ ds.length) :
    (parse csv doc rm cf ct).records = [] ∧
    (parse csv doc rm cf ct).fatal = some PError.mismatchError := by
  have hp : parse csv doc rm cf ct = parseCore csv (extractVersion doc.title) ns ds :=
    parse_some_eq csv doc rm cf ct ns ds hdg
  have hc : ¬(ns.length = (ns.map (fun n => get_iso_code n csv)).length ∧
      (ns.map (fun n => get_iso_code n csv)).length = ds.length) := by
    rw [List.length_map]
    intro h
    exact hne h.2
  rw [hp]
  unfold parseCore
  rw [if_neg hc]
  exact ⟨rfl, rfl⟩

/-- Witness for C4: three country blocks against two description blocks
yield zero records and the mismatch error. -/
theorem C4_witness :
    (parse (some []) ⟨some "t", ["A", "B", "C"], [["x"], ["y"]]⟩ "" "" "").records = [] ∧
    (parse (some []) ⟨some "t", ["A", "B", "C"], [["x"], ["y"]]⟩ "" "" "").fatal =
      some PError.mismatchError :=
  C4_mismatch_no_records (some []) ⟨some "t", ["A", "B", "C"], [["x"], ["y"]]⟩ "" "" ""
    ["A", "B", "C"] [["x"], ["y"]] (by decide) (by decide)

/-- Counterexample to C3: with the reference table file absent (modelled
as the `none` table), the source catches the error inside get_iso_code and
returns None per call instead of aborting: on a one-country document the
run still builds a record, still produces output events, and its fatal
field is clear — so the run does not abort before producing output. -/
theorem C3_counterexample :
    get_iso_code "France" none = none ∧
    (parse none ⟨some "Release Notes 1.2.3", ["France"], [["Line one"]]⟩ "" "" "").records =
      [⟨"France", "1.2.3", none, "Line one"⟩] ∧
    (parse none ⟨some "Release Notes 1.2.3", ["France"], [["Line one"]]⟩ "" "" "").fatal = none ∧
    (runPipeline none ⟨some "Release Notes 1.2.3", ["France"], [["Line one"]]⟩ "" "" "").length = 4 ∧
    Event.displayRecord ⟨"France", "1.2.3", none, "Line one"⟩ ∈
      runPipeline none ⟨some "Release Notes 1.2.3", ["France"], [["Line one"]]⟩ "" "" "" := by
  refine ⟨rfl, by decide, by decide, by decide, by decide⟩

/-- C3 as amended: when the reference table file is absent or unreadable,
every resolver call returns absent (after reporting the error); the run
does not abort — every extracted record carries an absent ISO code, and
whenever any record was extracted the unmatched gate withholds all
persistence while output is still produced. -/
theorem C3_missing_table_amended (doc : HtmlDoc) (rm cf ct : String) :
    (∀ raw, get_iso_code raw none = none) ∧
    (∀ r ∈ (parse none doc rm cf ct).records, r.iso_code = none) ∧
    ((parse none doc rm cf ct).records ≠ [] →
      (runPipeline none doc rm cf ct).filter isUpsert = []) := by
  have hkey : (∀ r ∈ (parse none doc rm cf ct).records, r.iso_code = none) ∧
      ((parse none doc rm cf ct).records ≠ [] →
        (parse none doc rm cf ct).unmatched ≠ []) := by
    cases hdg : dropGeneral (doc.countryBlocks.map sanitize_text)
        (doc.descriptionBlocks.map (extract_descriptions rm cf ct)) with
    | none =>
      rw [parse_none_eq none doc rm cf ct hdg]
      constructor
      · intro r hr
        simp at hr
      · intro h
        simp at h
    | some nd =>
      obtain ⟨names, descs⟩ := nd
      rw [parse_some_eq none doc rm cf ct names descs hdg]
      unfold parseCore
      by_cases hc : names.length = (names.map (fun n => get_iso_code n none)).length ∧
          (names.map (fun n => get_iso_code n none)).length = descs.length
      · rw [if_pos hc]
        constructor
        · intro r hr
          refine mkRecords_iso_none _ names _ descs ?_ r hr
          intro i hi
          rcases List.mem_map.mp hi with ⟨x, _, rfl⟩
          rfl
        · intro hne
          have hnames : names ≠ [] := by
            intro h0
            subst h0
            simp [mkRecords] at hne
          have hfilter : names.filter (fun n => (get_iso_code n none).isNone) = names :=
            List.filter_eq_self.mpr (fun a _ => rfl)
          simpa [hfilter] using hnames
      · rw [if_neg hc]
        constructor
        · intro r hr
          simp at hr
        · intro h
          simp at h
  refine ⟨fun raw => rfl, hkey.1, ?_⟩
  intro hne
  exact main_events_no_upsert _ _ (hkey.2 hne)

/-- Witness for the amended C3 at a concrete one-country document. -/
theorem C3_amended_witness :
    (runPipeline none ⟨some "Release Notes 1.2.3", ["France"], [["Line one"]]⟩ "" "" "").filter
      isUpsert = [] :=
  (C3_missing_table_amended ⟨some "Release Notes 1.2.3", ["France"], [["Line one"]]⟩
    "" "" "").2.2 (by decide)

/-- Counterexample to C6: the source drops only the FIRST General block,
so in a document whose first block is General but where a later block is
also named General, the output (of N-1 records) still contains a record
bearing the name General, contradicting the universal claim. -/
theorem C6_counterexample :
    (HtmlDoc.mk (some "a b c") ["General", "General"] [["x"], ["y"]]).countryBlocks.length = 2 ∧
    (HtmlDoc.mk (some "a b c") ["General", "General"] [["x"], ["y"]]).descriptionBlocks.length = 2 ∧
    sanitize_text "General" = "General" ∧
    lowerStr "General" = "general" ∧
    (parse (some []) (HtmlDoc.mk (some "a b c") ["General", "General"] [["x"], ["y"]])
        "" "" "").records.map CountryInfo.name = ["General"] := by
  refine ⟨rfl, rfl, by decide, by decide, by decide⟩

/-- C6 as amended: when the first sanitized country name lowercases to
general and the block counts agree, extraction outputs exactly N-1
records whose names are the remaining blocks in order; and provided no
OTHER block also lowercases to general, no output record bears the name
General. -/
theorem C6_general_drop_amended (csv : Option (List (String × String)))
    (doc : HtmlDoc) (rm cf ct : String) (g : String) (rest : List String)
    (hnames : doc.countryBlocks.map sanitize_text = g :: rest)
    (hg : lowerStr g = "general")
    (hlen : doc.descriptionBlocks.length = doc.countryBlocks.length) :
    (parse csv doc rm cf ct).records.length = doc.countryBlocks.length - 1 ∧
    (parse csv doc rm cf ct).records.map CountryInfo.name = rest ∧
    ((∀ n ∈ rest, lowerStr n ≠ "general") →
      "General" ∉ (parse csv doc rm cf ct).records.map CountryInfo.name) := by
  have hcount : doc.countryBlocks.length = rest.length + 1 := by
    have := congrArg List.length hnames
    simpa using this
  have hlen0 : (doc.descriptionBlocks.map (extract_descriptions rm cf ct)).length =
      rest.length + 1 := by
    rw [List.length_map, hlen, hcount]
  cases hd : doc.descriptionBlocks.map (extract_descriptions rm cf ct) with
  | nil =>
    rw [hd] at hlen0
    simp at hlen0
  | cons d ds =>
    have hds : ds.length = rest.length := by
      rw [hd] at hlen0
      simpa using hlen0
    have hdg : dropGeneral (doc.countryBlocks.map sanitize_text)
        (doc.descriptionBlocks.map (extract_descriptions rm cf ct)) = some (rest, ds) := by
      rw [hnames, hd]
      simp [dropGeneral, hg]
    have hp : parse csv doc rm cf ct = parseCore csv (extractVersion doc.title) rest ds :=
      parse_some_eq csv doc rm cf ct rest ds hdg
    have hc : rest.length = (rest.map (fun n => get_iso_code n csv)).length ∧
        (rest.map (fun n => get_iso_code n csv)).length = ds.length := by
      rw [List.length_map]
      exact ⟨rfl, hds.symm⟩
    have hrec : (parse csv doc rm cf ct).records =
        mkRecords (extractVersion doc.title) rest
          (rest.map (fun n => get_iso_code n csv)) ds := by
      rw [hp]
      unfold parseCore
      rw [if_pos hc]
    have hmapn : (parse csv doc rm cf ct).records.map CountryInfo.name = rest := by
      rw [hrec]
      exact mkRecords_names _ rest _ ds (by rw [List.length_map]) hds.symm
    refine ⟨?_, hmapn, ?_⟩
    · have := congrArg List.length hmapn
      rw [List.length_map] at this
      rw [this, hcount]
      omega
    · intro hno hmem
      rw [hmapn] at hmem
      exact hno "General" hmem (by decide)

/-- Witness for the amended C6 at a two-block document whose first block
is General: one record results and none is named General. -/
theorem C6_amended_witness :
    (parse (some []) (HtmlDoc.mk (some "a b c") ["General", "France"] [["x"], ["y"]])
        "" "" "").records.length =
      (HtmlDoc.mk (some "a b c") ["General", "France"] [["x"], ["y"]]).countryBlocks.length - 1 ∧
    "General" ∉ (parse (some []) (HtmlDoc.mk (some "a b c") ["General", "France"]
        [["x"], ["y"]]) "" "" "").records.map CountryInfo.name := by
  have h := C6_general_drop_amended (some [])
    (HtmlDoc.mk (some "a b c") ["General", "France"] [["x"], ["y"]]) "" "" ""
    "General" ["France"] (by decide) (by decide) (by decide)
  exact ⟨h.1, h.2.2 (by decide)⟩

/-- C5: the rewrite engine first removes, for each keyword in order, all
case-insensitive occurrences, and only then applies each (from, to)
substitution in order, replacing case-insensitive occurrences with the
literal replacement; empty rule sets leave the text unchanged.  Concrete
checks reproduce the spec examples, and the final conjunct ties the
engine to the per-item loop of extract_descriptions when all three
environment strings are non-empty. -/
theorem C5_rewrite_engine :
    (∀ t : String, rewrite t [] [] = t)
    ∧ rewrite "This is Foo text" ["Foo"] [] = "This is  text"
    ∧ rewrite "100 KM limit" [] [("km", "mi")] = "100 mi limit"
    ∧ (∀ (t : String) (kws : List String) (subs : List (String × String)),
        rewrite t kws subs = applySubstitutions subs (applyRemovals kws t))
    ∧ (∀ (li rm cf ct : String), rm ≠ "" → cf ≠ "" → ct ≠ "" →
        processLi rm cf ct li =
          rewrite (sanitize_text li) (splitComma rm) ((splitComma cf).zip (splitComma ct))) := by
  refine ⟨fun t => rfl, by decide, by decide, fun t kws subs => rfl, ?_⟩
  intro li rm cf ct h1 h2 h3
  simp [processLi, rewrite, applyRemovals, applySubstitutions, h1, h2, h3]

/-- Witness for C5 at concrete environment strings and item text. -/
theorem C5_witness :
    processLi "Foo" "km" "mi" "This is Foo text" =
      rewrite (sanitize_text "This is Foo text") (splitComma "Foo")
        ((splitComma "km").zip (splitComma "mi")) :=
  C5_rewrite_engine.2.2.2.2 "This is Foo text" "Foo" "km" "mi"
    (by decide) (by decide) (by decide)

theorem zip_take_eq {α β : Type} : ∀ (l1 : List α) (l2 : List β),
    l1.zip l2 = (l1.take l2.length).zip l2 := by
  intro l1
  induction l1 with
  | nil => intro l2; simp
  | cons a t ih =>
    intro l2
    cases l2 with
    | nil => rfl
    | cons b u =>
      simp only [List.zip_cons_cons, List.length_cons, List.take_succ_cons]
      rw [← ih u]

/-- C10: the substitution pairing truncates to the shorter of the two
comma-split term lists, so surplus from-terms are silently ignored; and
when the to-term environment string is empty the guard skips the
substitution phase entirely, whatever the from-terms are. -/
theorem C10_substitution_truncation :
    (∀ (rm cf li : String), processLi rm cf "" li = processLi rm "" "" li)
    ∧ (∀ (t : String) (l1 l2 : List String),
        applySubstitutions (l1.zip l2) t =
          applySubstitutions ((l1.take l2.length).zip l2) t)
    ∧ (∀ (t : String) (l1 : List String),
        applySubstitutions (l1.zip ([] : List String)) t = t) := by
  refine ⟨?_, ?_, ?_⟩
  · intro rm cf li
    simp [processLi]
  · intro t l1 l2
    rw [← zip_take_eq]
  · intro t l1
    rw [List.zip_nil_right]
    rfl
